import Mathlib

/-!
Verification development for the `peter` file encryption tool.

The repository has three Rust source files:
  * `src/core.rs`   — the Noise-based encrypt/decrypt pipeline (V1 wire format),
  * `src/ioutils.rs` — key reading/writing with base64 and the WORLD sentinel,
  * `src/main.rs`   — CLI dispatch.

We give a shallow embedding.  Pure framing and key-I/O logic is translated
directly from the source.  The external `snow` Noise library (X25519,
ChaChaPoly, BLAKE2s) is not part of this repository; it is modelled
symbolically but length-faithfully: a handshake message is HEADER_LENGTH = 96
bytes, every transport ciphertext is its plaintext plus a 16-byte tag, and
decryption verifies the tag derived from the session key and nonce counter.
File streams are byte lists; a `read` into a buffer of size `n` returns
`min n remaining` bytes, which is the behaviour of `Read::read` on local
files that the code relies on.  Rust `assert!`/`panic!` are modelled as the
fatal outcome `PErr.assertViolation` of the `Except` monad.
-/

set_option maxRecDepth 10000

namespace Peter

/-- Byte strings; each entry is meant to be `< 256`. -/
abbrev Bytes := List Nat

/-- Constants from `src/core.rs`. -/
def HEADER_LENGTH : Nat := 96

def OVERHEAD_PER_MESSAGE : Nat := 16

def SIZEMARKER_LENGTH : Nat := 8

def SIZEMARKER_ENC_LENGTH : Nat := SIZEMARKER_LENGTH + OVERHEAD_PER_MESSAGE

def MAX_MESSAGE_LENGTH : Nat := 65535

def MAX_PAYLOAD_PART_LENGTH : Nat := MAX_MESSAGE_LENGTH - OVERHEAD_PER_MESSAGE

/-- The V1 prologue bytes, ASCII of "PETER V1". -/
def PROLOGUE : Bytes := ("PETER V1".toList).map Char.toNat

/-- Fatal outcomes.  `assertViolation` models a Rust `assert!`/`panic!`,
the others model the `failure::Error` values returned by the code. -/
inductive PErr where
  | assertViolation
  | usageErr
  | eofErr
  | cryptoErr
  | base64Err
  | worldWriteErr
  | missingKey
  | fuelErr
deriving DecidableEq, Repr

/-- Models a Rust `assert!(b)`: `Ok(())` when the condition holds, a fatal
panic otherwise. -/
def assertE (b : Prop) [Decidable b] : Except PErr Unit :=
  if b then .ok () else .error .assertViolation

/- ## Symbolic model of the snow Noise session (external library) -/

def sumBytes (l : Bytes) : Nat := l.foldl (· + ·) 0

/-- Symbolic X25519 public-key derivation (`extract_pubkey` / the static key
snow derives from a private key).  Length-preserving and injective on byte
lists. -/
def dhPub (priv : Bytes) : Bytes := priv.map (fun b => (b + 1) % 256)

def extract_pubkey (privkey : Bytes) : Bytes := dhPub privkey

/-- The 16-byte AEAD tag of a transport message, bound to the session key and
the nonce counter. -/
def tag16 (k : Bytes) (nonce : Nat) : Bytes :=
  List.replicate OVERHEAD_PER_MESSAGE ((sumBytes k + nonce) % 256)

/-- `TransportState::write_message`: ciphertext is the plaintext plus the
16-byte tag. -/
def writeMessage (k : Bytes) (nonce : Nat) (m : Bytes) : Bytes :=
  m ++ tag16 k nonce

/-- `TransportState::read_message`: verify length and tag, recover the
plaintext. -/
def readMessage (k : Bytes) (nonce : Nat) (c : Bytes) : Except PErr Bytes :=
  if OVERHEAD_PER_MESSAGE ≤ c.length ∧
      c.drop (c.length - OVERHEAD_PER_MESSAGE) = tag16 k nonce
  then .ok (c.take (c.length - OVERHEAD_PER_MESSAGE))
  else .error .cryptoErr

/-- Authentication tags inside the handshake message, binding the sender
static key, the recipient static key and the prologue. -/
def hsTag (senderPub recipientPub : Bytes) (i : Nat) : Bytes :=
  List.replicate OVERHEAD_PER_MESSAGE
    ((sumBytes senderPub + 2 * sumBytes recipientPub + sumBytes PROLOGUE + i) % 256)

/-- The one Noise X handshake message written by the initiator: a 32-byte
ephemeral share, the sender's 32-byte static public key, and two 16-byte
tags (for the encrypted static key and the empty payload) — 96 bytes. -/
def handshakeMsg (senderPriv recipientPub : Bytes) : Bytes :=
  List.replicate 32 0 ++ dhPub senderPriv ++
    hsTag (dhPub senderPriv) recipientPub 0 ++ hsTag (dhPub senderPriv) recipientPub 1

/-- The responder's `read_message` on the handshake: parse the sender static
key and verify the tags against its own static key and the prologue.
Returns the learned remote static key (the handshake payload is empty). -/
def readHandshake (recipPriv : Bytes) (msg : Bytes) : Except PErr Bytes :=
  let senderPub := (msg.drop 32).take 32
  if msg.take 32 = List.replicate 32 0 ∧
      msg.drop 64 = hsTag senderPub (dhPub recipPriv) 0 ++ hsTag senderPub (dhPub recipPriv) 1
  then .ok senderPub
  else .error .cryptoErr

/-- Transport key material both sides derive from the handshake. -/
def sessionKey (senderPub recipientPub : Bytes) : Bytes := senderPub ++ recipientPub

/- ## Big-endian u64 encoding (byteorder crate) -/

/-- `write_u64::<BigEndian>`: 8 bytes, most significant first. -/
def be64 (n : Nat) : Bytes :=
  [n / 2 ^ 56 % 256, n / 2 ^ 48 % 256, n / 2 ^ 40 % 256, n / 2 ^ 32 % 256,
   n / 2 ^ 24 % 256, n / 2 ^ 16 % 256, n / 2 ^ 8 % 256, n % 256]

/-- `read_u64::<BigEndian>` on an 8-byte buffer. -/
def decodeBe64 (l : Bytes) : Nat := l.foldl (fun acc b => acc * 256 + b) 0

/- ## Name sentinels from `src/ioutils.rs` -/

def is_stdinout (fname : List Char) : Bool := fname == ['-']

def is_none (fname : List Char) : Bool := fname == ['.']

def is_world (fname : List Char) : Bool := fname == ['+']

/- ## The encrypt pipeline (`src/core.rs`, `encrypt`) -/

/-- One `fp_in.read(&mut buffer_in)` step sequence on a local file: the file
is consumed in chunks of `min MAX_PAYLOAD_PART_LENGTH remaining` bytes.
`chunksOfF` is fuel-indexed so that it computes by kernel reduction; fuel
`x.length` always suffices because each step consumes at least one byte. -/
def chunksOfF (c : Nat) : Nat → Bytes → List Bytes
  | _, [] => []
  | 0, _ => []
  | Nat.succ f, x => x.take c :: chunksOfF c f (x.drop c)

def chunksOf (c : Nat) (x : Bytes) : List Bytes := chunksOfF c x.length x

def sumLens (l : List Bytes) : Nat := l.foldr (fun c acc => c.length + acc) 0

def catL (l : List Bytes) : Bytes := l.foldr (· ++ ·) []

/-- The payload loop of `encrypt` (lines 100–115 of core.rs), over an
arbitrary sequence of read results: stop at the first read returning 0
bytes, otherwise emit `write_message` of the chunk and accumulate
`payload_length2`.  Returns the emitted records and the accumulated count. -/
def encLoopReads (k : Bytes) : Nat → List Bytes → List Bytes × Nat
  | _, [] => ([], 0)
  | nonce, c :: rest =>
    if c.length = 0 then ([], 0)
    else
      let r := encLoopReads k (nonce + 1) rest
      (writeMessage k nonce c :: r.1, c.length + r.2)

/-- The records `encrypt` emits for input `x`: the payload loop applied to
the actual file reads. -/
def encryptRecords (privkey pubkey : Bytes) (x : Bytes) : List Bytes :=
  (encLoopReads (sessionKey (dhPub privkey) pubkey) 1 (chunksOf MAX_PAYLOAD_PART_LENGTH x)).1

/-- `encrypt` from `src/core.rs`.  `fin` is the input file name (checked
against the stdin sentinel, which panics "not implemented"); `x` is the
input file's content; the returned bytes are what is written to `fout`. -/
def encrypt (privkey pubkey : Bytes) (fin : List Char) (x : Bytes) : Except PErr Bytes :=
  if is_stdinout fin then .error .assertViolation
  else do
    let payload_length := x.length
    let hs := handshakeMsg privkey pubkey
    assertE (hs.length = HEADER_LENGTH)
    let k := sessionKey (dhPub privkey) pubkey
    let lenvec := be64 payload_length
    assertE (lenvec.length = SIZEMARKER_LENGTH)
    let sm := writeMessage k 0 lenvec
    assertE (sm.length = SIZEMARKER_ENC_LENGTH)
    let r := encLoopReads k 1 (chunksOf MAX_PAYLOAD_PART_LENGTH x)
    assertE (payload_length = r.2)
    .ok (hs ++ sm ++ catL r.1)

/- ## The decrypt pipeline (`src/core.rs`, `decrypt`) -/

/-- `read_exact` on a byte stream: take exactly `n` bytes or fail. -/
def readExact (n : Nat) (s : Bytes) : Except PErr (Bytes × Bytes) :=
  if n ≤ s.length then .ok (s.take n, s.drop n) else .error .eofErr

/-- The payload loop of `decrypt` (lines 172–189 of core.rs): read
`min MAX_MESSAGE_LENGTH remaining` bytes; a read of 0 breaks the loop;
otherwise `read_message`, append the plaintext to the output and add its
length to `payload_length2`.  Fuel-indexed; fuel `s.length` suffices. -/
def decLoopF (k : Bytes) : Nat → Nat → Bytes → Bytes → Nat → Except PErr (Bytes × Nat)
  | _, _, [], out, sum => .ok (out, sum)
  | 0, _, _ :: _, _, _ => .error .fuelErr
  | Nat.succ f, nonce, s@(_ :: _), out, sum =>
    let n := min MAX_MESSAGE_LENGTH s.length
    match readMessage k nonce (s.take n) with
    | .error e => .error e
    | .ok m => decLoopF k f (nonce + 1) (s.drop n) (out ++ m) (sum + m.length)

def decLoop (k : Bytes) (nonce : Nat) (s : Bytes) : Except PErr (Bytes × Nat) :=
  decLoopF k s.length nonce s [] 0

/-- The header phase of `decrypt` (lines 143–169 of core.rs): read exactly
96 bytes and verify the handshake, read exactly 24 bytes and decrypt the
size marker.  Returns the learned remote static key, the declared payload
length, and the remaining stream. -/
def decryptHeaders (privkey : Bytes) (s : Bytes) : Except PErr (Bytes × Nat × Bytes) := do
  let p1 ← readExact HEADER_LENGTH s
  let remoteStatic ← readHandshake privkey p1.1
  let k := sessionKey remoteStatic (dhPub privkey)
  let p2 ← readExact SIZEMARKER_ENC_LENGTH p1.2
  let sm ← readMessage k 0 p2.1
  assertE (sm.length = SIZEMARKER_LENGTH)
  .ok (remoteStatic, decodeBe64 sm, p2.2)

/-- `decrypt` from `src/core.rs`.  `s` is the ciphertext stream; on success
returns the plaintext written to `fout` and the learned sender static key. -/
def decrypt (privkey : Bytes) (pubkey : Option Bytes) (s : Bytes) :
    Except PErr (Bytes × Bytes) := do
  let h ← decryptHeaders privkey s
  let remoteStatic := h.1
  let payload_length := h.2.1
  let k := sessionKey remoteStatic (dhPub privkey)
  let r ← decLoop k 1 h.2.2
  assertE (payload_length = r.2)
  match pubkey with
  | some pk => assertE (pk = remoteStatic)
  | none => pure ()
  .ok (r.1, remoteStatic)

/- ## base64 (the base64 crate, standard alphabet with padding) -/

def b64Alphabet : List Char :=
  "ABCDEFGHIJKLMNOPQRSTUVWXYZabcdefghijklmnopqrstuvwxyz0123456789+/".toList

def b64Char (n : Nat) : Char := b64Alphabet.getD (n % 64) 'A'

def b64ValAux : List Char → Nat → Char → Option Nat
  | [], _, _ => none
  | a :: rest, i, c => if c = a then some i else b64ValAux rest (i + 1) c

def b64Val (c : Char) : Option Nat := b64ValAux b64Alphabet 0 c

/-- `base64::encode`: 3 input bytes become 4 alphabet characters; a trailing
group of 1 or 2 bytes is padded with `=`. -/
def encodeB64 : Bytes → List Char
  | [] => []
  | [a] => [b64Char (a / 4), b64Char (a % 4 * 16), '=', '=']
  | [a, b] => [b64Char (a / 4), b64Char (a % 4 * 16 + b / 16), b64Char (b % 16 * 4), '=']
  | a :: b :: c :: rest =>
    b64Char (a / 4) :: b64Char (a % 4 * 16 + b / 16) ::
      b64Char (b % 16 * 4 + c / 64) :: b64Char (c % 64) :: encodeB64 rest

/-- `base64::decode`: groups of 4 characters; `=` padding is only legal in
the final group; any character outside the alphabet fails. -/
def decodeB64 : List Char → Option Bytes
  | [] => some []
  | w :: x :: y :: z :: rest =>
    match b64Val w, b64Val x with
    | some vw, some vx =>
      if y = '=' then
        if z = '=' ∧ rest = [] then some [vw * 4 + vx / 16] else none
      else
        match b64Val y with
        | some vy =>
          if z = '=' then
            if rest = [] then some [vw * 4 + vx / 16, vx % 16 * 16 + vy / 4] else none
          else
            match b64Val z with
            | some vz =>
              (decodeB64 rest).map
                (fun t => (vw * 4 + vx / 16) :: (vx % 16 * 16 + vy / 4) :: (vy % 4 * 64 + vz) :: t)
            | none => none
        | none => none
    | _, _ => none
  | _ => none

/- ## Whitespace trimming (Rust `str::trim`) -/

def isWsChar (c : Char) : Bool := c == ' ' || c == '\t' || c == '\n' || c == '\r'

def trimL (l : List Char) : List Char := l.dropWhile isWsChar

def trimR (l : List Char) : List Char := (l.reverse.dropWhile isWsChar).reverse

def trimC (l : List Char) : List Char := trimR (trimL l)

/- ## Key I/O (`src/ioutils.rs`) -/

def WORLD_PRIVATE : List Char := "4vQ4EoIcdkSn3liU4Fki9vyx1CsFb5RluE5gZnGfEyg=".toList

def WORLD_PUBLIC : List Char := "x+ssYnIlVuk9NkkxFbdXmNXCaAD0YB31aaUz5xsgPVI=".toList

inductive KeyType where
  | Public
  | Private
deriving DecidableEq, Repr

/-- The WORLD constant selected by a key type. -/
def worldStr : KeyType → List Char
  | .Public => WORLD_PUBLIC
  | .Private => WORLD_PRIVATE

/-- The raw WORLD key bytes of a key type (base64 decode of the constant). -/
def worldBytes (kt : KeyType) : Bytes := (decodeB64 (worldStr kt)).getD []

/-- `write_key` from `src/ioutils.rs`.  Returns the text that lands in the
destination: `none` for the `.` sentinel, an error for `+`; writing to
stdout appends the newline `println!` emits. -/
def write_key (fname : List Char) (data : Bytes) (key_type : KeyType) :
    Except PErr (Option (List Char)) :=
  if is_none fname then .ok none
  else if is_world fname then .error .worldWriteErr
  else if is_stdinout fname then
    .ok (some ((if encodeB64 data = worldStr key_type then ['+'] else encodeB64 data) ++ ['\n']))
  else .ok (some (if encodeB64 data = worldStr key_type then ['+'] else encodeB64 data))

/-- The part of `read_key` that processes the text obtained from the source
(lines 91–110 of ioutils.rs): substitute the WORLD constant when the trimmed
text is `+`, then base64-decode the trimmed text. -/
def read_key_content (content : List Char) (key_type : KeyType) : Except PErr Bytes :=
  match decodeB64 (trimC (if is_world (trimC content) then worldStr key_type else content)) with
  | some bs => .ok bs
  | none => .error .base64Err

/-- `read_key` from `src/ioutils.rs`.  `stdin` is the text on standard
input, `fs` maps a file name to its content (none: the file cannot be
read). -/
def read_key (fname : List Char) (stdin : List Char) (fs : List Char → Option (List Char))
    (key_type : KeyType) : Except PErr (Option Bytes) :=
  if is_none fname then .ok none
  else
    match
      (if is_world fname then some (worldStr key_type)
       else if is_stdinout fname then some stdin
       else fs fname) with
    | none => .error .eofErr
    | some content => (read_key_content content key_type).map some

/- ## CLI dispatch for `enc` (`src/main.rs`, Command::Encrypt) -/

/-- The `enc` subcommand: reject more than one stdin consumer among the
input and key names, read both keys, then call `encrypt`.  `fileBytes` is
the content of the input file; the result is the ciphertext written to the
output. -/
def encryptCmd (privN pubN inN _outN : List Char) (stdin : List Char)
    (fs : List Char → Option (List Char)) (fileBytes : Bytes) : Except PErr Bytes :=
  if 1 < (if is_stdinout inN then 1 else 0) + (if is_stdinout privN then 1 else 0) +
      (if is_stdinout pubN then 1 else 0) then .error .usageErr
  else do
    let pk1 ← read_key privN stdin fs .Private
    match pk1 with
    | none => .error .missingKey
    | some privkey => do
      let pk2 ← read_key pubN stdin fs .Public
      match pk2 with
      | none => .error .missingKey
      | some pubkey => encrypt privkey pubkey inN fileBytes

/-- True exactly on the error outcome. -/
def isErr : Except PErr Bytes → Bool
  | .error _ => true
  | .ok _ => false

/- ## Basic lemmas about the transport model -/

@[simp]
lemma tag16_length (k : Bytes) (nonce : Nat) : (tag16 k nonce).length = OVERHEAD_PER_MESSAGE := by
  simp [tag16]

@[simp]
lemma writeMessage_length (k : Bytes) (nonce : Nat) (m : Bytes) :
    (writeMessage k nonce m).length = m.length + OVERHEAD_PER_MESSAGE := by
  simp [writeMessage]

@[simp]
lemma dhPub_length (p : Bytes) : (dhPub p).length = p.length := by
  simp [dhPub]

lemma readMessage_writeMessage (k : Bytes) (nonce : Nat) (m : Bytes) :
    readMessage k nonce (writeMessage k nonce m) = .ok m := by
  unfold readMessage
  have hlen : (writeMessage k nonce m).length = m.length + OVERHEAD_PER_MESSAGE := by simp
  rw [hlen]
  have h1 : m.length + OVERHEAD_PER_MESSAGE - OVERHEAD_PER_MESSAGE = m.length := by omega
  rw [h1]
  have hdrop : (writeMessage k nonce m).drop m.length = tag16 k nonce := by
    unfold writeMessage
    exact List.drop_left' rfl
  have htake : (writeMessage k nonce m).take m.length = m := by
    unfold writeMessage
    exact List.take_left' rfl
  rw [if_pos ⟨by omega, hdrop⟩, htake]

lemma be64_length (n : Nat) : (be64 n).length = SIZEMARKER_LENGTH := by
  simp [be64, SIZEMARKER_LENGTH]

lemma decodeBe64_be64 (n : Nat) (h : n < 2 ^ 64) : decodeBe64 (be64 n) = n := by
  simp only [decodeBe64, be64, List.foldl]
  omega

lemma handshakeMsg_length (sPriv recipientPub : Bytes) (h : sPriv.length = 32) :
    (handshakeMsg sPriv recipientPub).length = HEADER_LENGTH := by
  simp [handshakeMsg, hsTag, HEADER_LENGTH, OVERHEAD_PER_MESSAGE, h]

lemma readHandshake_handshakeMsg (sPriv rPriv : Bytes) (h : sPriv.length = 32) :
    readHandshake rPriv (handshakeMsg sPriv (dhPub rPriv)) = .ok (dhPub sPriv) := by
  have hd : (dhPub sPriv).length = 32 := by simp [h]
  unfold readHandshake handshakeMsg
  rw [List.append_assoc, List.append_assoc]
  have ht2 : (dhPub sPriv ++
      (hsTag (dhPub sPriv) (dhPub rPriv) 0 ++ hsTag (dhPub sPriv) (dhPub rPriv) 1)).take 32 =
      dhPub sPriv := List.take_left' hd
  have hd2 : (dhPub sPriv ++
      (hsTag (dhPub sPriv) (dhPub rPriv) 0 ++ hsTag (dhPub sPriv) (dhPub rPriv) 1)).drop 32 =
      hsTag (dhPub sPriv) (dhPub rPriv) 0 ++ hsTag (dhPub sPriv) (dhPub rPriv) 1 :=
    List.drop_left' hd
  simp [ht2, hd2]

/- ## Lemmas about concatenation and chunking -/

@[simp]
lemma catL_nil : catL [] = [] := rfl

@[simp]
lemma catL_cons (c : Bytes) (l : List Bytes) : catL (c :: l) = c ++ catL l := rfl

@[simp]
lemma sumLens_nil : sumLens [] = 0 := rfl

@[simp]
lemma sumLens_cons (c : Bytes) (l : List Bytes) : sumLens (c :: l) = c.length + sumLens l := rfl

lemma sumLens_eq_length_catL (l : List Bytes) : sumLens l = (catL l).length := by
  induction l with
  | nil => rfl
  | cons c t ih => simp [ih]

lemma chunksOfF_nil (c f : Nat) : chunksOfF c f [] = [] := by
  cases f <;> rfl

lemma chunksOfF_cons (c f : Nat) (x : Bytes) (hx : x ≠ []) :
    chunksOfF c (f + 1) x = x.take c :: chunksOfF c f (x.drop c) := by
  cases x with
  | nil => exact absurd rfl hx
  | cons a t => rfl

lemma catL_chunksOfF (c : Nat) (hc : 0 < c) :
    ∀ (f : Nat) (x : Bytes), x.length ≤ f → catL (chunksOfF c f x) = x := by
  intro f
  induction f with
  | zero =>
    intro x hx
    have : x = [] := List.eq_nil_of_length_eq_zero (by omega)
    subst this
    simp [chunksOfF_nil]
  | succ f ih =>
    intro x hx
    by_cases hxe : x = []
    · subst hxe
      simp [chunksOfF_nil]
    · rw [chunksOfF_cons c f x hxe, catL_cons]
      have hlt : (x.drop c).length ≤ f := by
        have h1 : 0 < x.length := List.length_pos.mpr hxe
        simp only [List.length_drop]
        omega
      rw [ih (x.drop c) hlt]
      exact List.take_append_drop c x

lemma catL_chunksOf (c : Nat) (hc : 0 < c) (x : Bytes) : catL (chunksOf c x) = x :=
  catL_chunksOfF c hc x.length x le_rfl

lemma chunksOfF_mem_ne_nil (c : Nat) (hc : 0 < c) :
    ∀ (f : Nat) (x : Bytes) (ch : Bytes), ch ∈ chunksOfF c f x → ch ≠ [] ∧ ch.length ≤ c := by
  intro f
  induction f with
  | zero =>
    intro x ch hch
    cases x <;> simp [chunksOfF] at hch
  | succ f ih =>
    intro x ch hch
    by_cases hxe : x = []
    · subst hxe
      simp [chunksOfF_nil] at hch
    · rw [chunksOfF_cons c f x hxe] at hch
      rcases List.mem_cons.mp hch with h | h
      · subst h
        constructor
        · have h1 : 0 < x.length := List.length_pos.mpr hxe
          intro hcon
          have := congrArg List.length hcon
          simp only [List.length_take, List.length_nil] at this
          omega
        · simp only [List.length_take]
          omega
      · exact ih (x.drop c) ch h

lemma chunksOf_mem_ne_nil (c : Nat) (hc : 0 < c) (x : Bytes) (ch : Bytes) (h : ch ∈ chunksOf c x) :
    ch ≠ [] ∧ ch.length ≤ c :=
  chunksOfF_mem_ne_nil c hc x.length x ch h

lemma chunksOfF_dropLast_full (c : Nat) (hc : 0 < c) :
    ∀ (f : Nat) (x : Bytes), x.length ≤ f →
      ∀ ch ∈ (chunksOfF c f x).dropLast, ch.length = c := by
  intro f
  induction f with
  | zero =>
    intro x hx ch hch
    have : x = [] := List.eq_nil_of_length_eq_zero (by omega)
    subst this
    simp [chunksOfF_nil] at hch
  | succ f ih =>
    intro x hx ch hch
    by_cases hxe : x = []
    · subst hxe
      simp [chunksOfF_nil] at hch
    · rw [chunksOfF_cons c f x hxe] at hch
      by_cases hrest : chunksOfF c f (x.drop c) = []
      · rw [hrest] at hch
        simp at hch
      · rw [List.dropLast_cons_of_ne_nil hrest] at hch
        rcases List.mem_cons.mp hch with h | h
        · subst h
          -- the tail chunk list is nonempty, so `x.drop c` is nonempty and
          -- the head chunk is a full chunk of length `c`
          have hdx : x.drop c ≠ [] := by
            intro hcon
            rw [hcon, chunksOfF_nil] at hrest
            exact hrest rfl
          have h1 : c < x.length := by
            have h2 : 0 < (x.drop c).length := List.length_pos.mpr hdx
            simp only [List.length_drop] at h2
            omega
          simp only [List.length_take]
          omega
        · have hlt : (x.drop c).length ≤ f := by
            have h1 : 0 < x.length := List.length_pos.mpr hxe
            simp only [List.length_drop]
            omega
          exact ih (x.drop c) hlt ch h

lemma chunksOf_dropLast_full (c : Nat) (hc : 0 < c) (x : Bytes) :
    ∀ ch ∈ (chunksOf c x).dropLast, ch.length = c :=
  chunksOfF_dropLast_full c hc x.length x le_rfl

/- ## Lemmas about the encrypt payload loop -/

lemma encLoopReads_nil (k : Bytes) (nonce : Nat) : encLoopReads k nonce [] = ([], 0) := rfl

lemma encLoopReads_cons_ne (k : Bytes) (nonce : Nat) (c : Bytes) (rest : List Bytes)
    (hc : c ≠ []) :
    encLoopReads k nonce (c :: rest) =
      (writeMessage k nonce c :: (encLoopReads k (nonce + 1) rest).1,
        c.length + (encLoopReads k (nonce + 1) rest).2) := by
  have h0 : ¬ c.length = 0 := by simpa [List.length_eq_zero] using hc
  simp [encLoopReads, h0]

lemma encLoopReads_snd (k : Bytes) (reads : List Bytes) (nonce : Nat) :
    (encLoopReads k nonce reads).2 = sumLens (reads.takeWhile (fun c => !c.isEmpty)) := by
  induction reads generalizing nonce with
  | nil => simp [encLoopReads]
  | cons c rest ih =>
    by_cases hc : c.length = 0
    · have hce : c = [] := List.length_eq_zero.mp hc
      subst hce
      simp [encLoopReads, List.takeWhile_cons]
    · have hce : c ≠ [] := by simpa [List.length_eq_zero] using hc
      have hne : c.isEmpty = false := by
        cases c with
        | nil => exact absurd rfl hce
        | cons a t => rfl
      rw [encLoopReads_cons_ne k nonce c rest hce]
      simp [List.takeWhile_cons, hne, ih]

lemma takeWhile_all_ne_nil (reads : List Bytes) (h : ∀ c ∈ reads, c ≠ []) :
    reads.takeWhile (fun c => !c.isEmpty) = reads := by
  induction reads with
  | nil => rfl
  | cons c rest ih =>
    have hc : c ≠ [] := h c (List.mem_cons_self c rest)
    have hne : c.isEmpty = false := by
      cases c with
      | nil => exact absurd rfl hc
      | cons a t => rfl
    simp only [List.takeWhile_cons, hne, Bool.not_false, if_true]
    rw [ih (fun c hc => h c (List.mem_cons_of_mem _ hc))]

lemma encLoopReads_snd_of_ne_nil (k : Bytes) (chunks : List Bytes) (nonce : Nat)
    (h : ∀ c ∈ chunks, c ≠ []) :
    (encLoopReads k nonce chunks).2 = sumLens chunks := by
  rw [encLoopReads_snd, takeWhile_all_ne_nil chunks h]

lemma sumLens_chunksOf (c : Nat) (hc : 0 < c) (x : Bytes) :
    sumLens (chunksOf c x) = x.length := by
  rw [sumLens_eq_length_catL, catL_chunksOf c hc]

/- ## Lemmas about the decrypt payload loop -/

lemma decLoopF_nil (k : Bytes) (f nonce : Nat) (out : Bytes) (sum : Nat) :
    decLoopF k f nonce [] out sum = .ok (out, sum) := by
  cases f <;> rfl

lemma decLoopF_succ (k : Bytes) (f nonce : Nat) (s : Bytes) (out : Bytes) (sum : Nat)
    (hs : s ≠ []) :
    decLoopF k (f + 1) nonce s out sum =
      match readMessage k nonce (s.take (min MAX_MESSAGE_LENGTH s.length)) with
      | .error e => .error e
      | .ok m =>
        decLoopF k f (nonce + 1) (s.drop (min MAX_MESSAGE_LENGTH s.length)) (out ++ m)
          (sum + m.length) := by
  cases s with
  | nil => exact absurd rfl hs
  | cons a t => rfl

/-- The decrypt loop, run on exactly the records the encrypt loop emitted
for a chunk sequence shaped like actual file reads (every chunk nonempty
and at most `MAX_PAYLOAD_PART_LENGTH` bytes, every chunk but the last
full), recovers the concatenated chunks and counts their total length. -/
lemma decLoopF_encLoopReads (k : Bytes) (chunks : List Bytes) :
    ∀ (nonce fuel : Nat) (out : Bytes) (sum : Nat),
      (∀ c ∈ chunks, c ≠ [] ∧ c.length ≤ MAX_PAYLOAD_PART_LENGTH) →
      (∀ c ∈ chunks.dropLast, c.length = MAX_PAYLOAD_PART_LENGTH) →
      (catL (encLoopReads k nonce chunks).1).length ≤ fuel →
      decLoopF k fuel nonce (catL (encLoopReads k nonce chunks).1) out sum =
        .ok (out ++ catL chunks, sum + sumLens chunks) := by
  induction chunks with
  | nil =>
    intro nonce fuel out sum h1 h2 hf
    simp [encLoopReads_nil, decLoopF_nil]
  | cons c rest ih =>
    intro nonce fuel out sum h1 h2 hf
    have hc : c ≠ [] ∧ c.length ≤ MAX_PAYLOAD_PART_LENGTH := h1 c (List.mem_cons_self c rest)
    have hclen : 0 < c.length := List.length_pos.mpr hc.1
    rw [encLoopReads_cons_ne k nonce c rest hc.1] at hf ⊢
    simp only [catL_cons] at hf ⊢
    set record := writeMessage k nonce c with hrec
    set restStream := catL (encLoopReads k (nonce + 1) rest).1 with hrs
    have hreclen : record.length = c.length + OVERHEAD_PER_MESSAGE := by
      rw [hrec, writeMessage_length]
    have hrecle : record.length ≤ MAX_MESSAGE_LENGTH := by
      have : MAX_PAYLOAD_PART_LENGTH + OVERHEAD_PER_MESSAGE = MAX_MESSAGE_LENGTH := by decide
      omega
    have hrecpos : 0 < record.length := by omega
    have hstreamlen : (record ++ restStream).length = record.length + restStream.length := by
      simp
    cases rest with
    | nil =>
      -- single (final) record: the read takes the whole remaining stream
      have hrs0 : restStream = [] := by rw [hrs, encLoopReads_nil]; rfl
      rw [hrs0, List.append_nil] at hf ⊢
      obtain ⟨f, rfl⟩ : ∃ f, fuel = f + 1 := by
        cases fuel with
        | zero => omega
        | succ f => exact ⟨f, rfl⟩
      rw [decLoopF_succ k f nonce record out sum (by
        intro hcon
        rw [hcon] at hrecpos
        simp at hrecpos)]
      have hmin : min MAX_MESSAGE_LENGTH record.length = record.length := by omega
      rw [hmin, List.take_length, List.drop_length, hrec,
        readMessage_writeMessage k nonce c]
      simp [decLoopF_nil]
    | cons c2 rest2 =>
      -- a full record followed by more records
      have hcfull : c.length = MAX_PAYLOAD_PART_LENGTH := by
        apply h2 c
        rw [List.dropLast_cons_of_ne_nil (by simp : c2 :: rest2 ≠ [])]
        exact List.mem_cons_self c _
      have hrecfull : record.length = MAX_MESSAGE_LENGTH := by
        have : MAX_PAYLOAD_PART_LENGTH + OVERHEAD_PER_MESSAGE = MAX_MESSAGE_LENGTH := by decide
        omega
      obtain ⟨f, rfl⟩ : ∃ f, fuel = f + 1 := by
        cases fuel with
        | zero =>
          rw [hstreamlen] at hf
          omega
        | succ f => exact ⟨f, rfl⟩
      have hne : record ++ restStream ≠ [] := by
        intro hcon
        have hlen := congrArg List.length hcon
        rw [hstreamlen] at hlen
        simp only [List.length_nil] at hlen
        omega
      rw [decLoopF_succ k f nonce (record ++ restStream) out sum hne]
      have hmin : min MAX_MESSAGE_LENGTH (record ++ restStream).length = record.length := by
        rw [hstreamlen]
        omega
      rw [hmin, List.take_left, List.drop_left, hrec, readMessage_writeMessage k nonce c]
      show decLoopF k f (nonce + 1) restStream (out ++ c) (sum + c.length) =
        Except.ok (out ++ (c ++ catL (c2 :: rest2)), sum + sumLens (c :: c2 :: rest2))
      have h1' : ∀ d ∈ c2 :: rest2, d ≠ [] ∧ d.length ≤ MAX_PAYLOAD_PART_LENGTH :=
        fun d hd => h1 d (List.mem_cons_of_mem _ hd)
      have h2' : ∀ d ∈ (c2 :: rest2).dropLast, d.length = MAX_PAYLOAD_PART_LENGTH := by
        intro d hd
        apply h2 d
        rw [List.dropLast_cons_of_ne_nil (by simp : c2 :: rest2 ≠ [])]
        exact List.mem_cons_of_mem _ hd
      have hf' : (catL (encLoopReads k (nonce + 1) (c2 :: rest2)).1).length ≤ f := by
        rw [hstreamlen] at hf
        rw [← hrs]
        omega
      rw [ih (nonce + 1) f (out ++ c) (sum + c.length) h1' h2' hf']
      simp only [catL_cons, sumLens_cons]
      rw [List.append_assoc]
      congr 1
      congr 1
      omega

/- ## Pipeline-level equations -/

lemma mppl_pos : 0 < MAX_PAYLOAD_PART_LENGTH := by decide

@[simp]
lemma except_bind_ok {α β : Type} (a : α) (f : α → Except PErr β) :
    (Except.ok a : Except PErr α) >>= f = f a := rfl

@[simp]
lemma except_bind_error {α β : Type} (e : PErr) (f : α → Except PErr β) :
    (Except.error e : Except PErr α) >>= f = Except.error e := rfl

@[simp]
lemma except_pure {α : Type} (a : α) : (pure a : Except PErr α) = Except.ok a := rfl

/-- On any non-stdin input name, `encrypt` succeeds and its output is the
96-byte handshake, the 24-byte encrypted size marker, and the payload
records in order. -/
lemma encrypt_eq (priv pub : Bytes) (fname : List Char) (x : Bytes)
    (h32 : priv.length = 32) (hf : is_stdinout fname = false) :
    encrypt priv pub fname x =
      .ok (handshakeMsg priv pub ++
        writeMessage (sessionKey (dhPub priv) pub) 0 (be64 x.length) ++
        catL (encryptRecords priv pub x)) := by
  unfold encrypt
  rw [hf]
  have e1 : assertE ((handshakeMsg priv pub).length = HEADER_LENGTH) = .ok () := by
    rw [handshakeMsg_length priv pub h32]
    simp [assertE]
  have e2 : assertE ((be64 x.length).length = SIZEMARKER_LENGTH) = .ok () := by
    rw [be64_length]
    simp [assertE]
  have e3 : assertE ((writeMessage (sessionKey (dhPub priv) pub) 0 (be64 x.length)).length =
      SIZEMARKER_ENC_LENGTH) = .ok () := by
    rw [writeMessage_length, be64_length]
    simp [assertE, SIZEMARKER_ENC_LENGTH]
  have e4 : assertE (x.length =
      (encLoopReads (sessionKey (dhPub priv) pub) 1 (chunksOf MAX_PAYLOAD_PART_LENGTH x)).2) =
      .ok () := by
    rw [encLoopReads_snd_of_ne_nil _ _ _
      (fun c hc => (chunksOf_mem_ne_nil MAX_PAYLOAD_PART_LENGTH mppl_pos x c hc).1)]
    rw [sumLens_chunksOf MAX_PAYLOAD_PART_LENGTH mppl_pos]
    simp [assertE]
  simp only [Bool.false_eq_true, if_false, e1, e2, e3, e4, encryptRecords]
  rfl

/-- `decryptHeaders` on a stream shaped like `encrypt` output: consumes the
96-byte handshake and the 24-byte size marker, learns the sender static
key, decodes the declared length, and leaves the rest of the stream. -/
lemma decryptHeaders_ok (sPriv rPriv : Bytes) (h32 : sPriv.length = 32) (n : Nat)
    (body : Bytes) :
    decryptHeaders rPriv (handshakeMsg sPriv (dhPub rPriv) ++
      writeMessage (sessionKey (dhPub sPriv) (dhPub rPriv)) 0 (be64 n) ++ body) =
      .ok (dhPub sPriv, decodeBe64 (be64 n), body) := by
  have hhs : (handshakeMsg sPriv (dhPub rPriv)).length = HEADER_LENGTH :=
    handshakeMsg_length sPriv (dhPub rPriv) h32
  have hsm : (writeMessage (sessionKey (dhPub sPriv) (dhPub rPriv)) 0 (be64 n)).length =
      SIZEMARKER_ENC_LENGTH := by
    rw [writeMessage_length, be64_length]
    rfl
  unfold decryptHeaders
  rw [List.append_assoc]
  have hr1 : readExact HEADER_LENGTH (handshakeMsg sPriv (dhPub rPriv) ++
      (writeMessage (sessionKey (dhPub sPriv) (dhPub rPriv)) 0 (be64 n) ++ body)) =
      .ok (handshakeMsg sPriv (dhPub rPriv),
        writeMessage (sessionKey (dhPub sPriv) (dhPub rPriv)) 0 (be64 n) ++ body) := by
    unfold readExact
    rw [if_pos (by simp [hhs])]
    rw [List.take_left' hhs, List.drop_left' hhs]
  have hr2 : readExact SIZEMARKER_ENC_LENGTH
      (writeMessage (sessionKey (dhPub sPriv) (dhPub rPriv)) 0 (be64 n) ++ body) =
      .ok (writeMessage (sessionKey (dhPub sPriv) (dhPub rPriv)) 0 (be64 n), body) := by
    unfold readExact
    rw [if_pos (by simp [hsm])]
    rw [List.take_left' hsm, List.drop_left' hsm]
  have hassert : assertE ((be64 n).length = SIZEMARKER_LENGTH) = .ok () := by
    rw [be64_length]
    simp [assertE]
  simp only [hr1, hr2, readHandshake_handshakeMsg sPriv rPriv h32,
    readMessage_writeMessage, hassert, except_bind_ok]

/-- `decrypt` with an expected sender key is `decrypt` without one followed
by the sender check (the check happens after the payload loop and the
length assertion). -/
lemma decrypt_some_eq (priv : Bytes) (pk : Bytes) (s : Bytes) :
    decrypt priv (some pk) s =
      (decrypt priv none s) >>= fun r =>
        (assertE (pk = r.2)) >>= fun _ => .ok r := by
  unfold decrypt
  rcases hh : decryptHeaders priv s with e | h
  · simp only [except_bind_error]
  · simp only [except_bind_ok]
    rcases hl : decLoop (sessionKey h.1 (dhPub priv)) 1 h.2.2 with e | r
    · simp only [except_bind_error]
    · simp only [except_bind_ok]
      by_cases hd : h.2.1 = r.2
      · have ha : assertE (h.2.1 = r.2) = .ok () := by simp [assertE, hd]
        simp only [ha, except_bind_ok]
        rfl
      · have ha : assertE (h.2.1 = r.2) = .error .assertViolation := by simp [assertE, hd]
        simp only [ha, except_bind_error]

/- ## base64 lemmas -/

lemma b64Val_b64Char (v : Nat) (h : v < 64) : b64Val (b64Char v) = some v := by
  have hb : ∀ m, m < 64 → b64Val (b64Alphabet.getD m 'A') = some m := by decide
  have hv := hb v h
  unfold b64Char
  rw [Nat.mod_eq_of_lt h]
  exact hv

lemma b64Char_ne_pad (v : Nat) : b64Char v ≠ '=' := by
  have hb : ∀ m, m < 64 → b64Alphabet.getD m 'A' ≠ '=' := by decide
  unfold b64Char
  exact hb (v % 64) (Nat.mod_lt _ (by decide))

theorem decodeB64_encodeB64 : ∀ (l : Bytes), (∀ b ∈ l, b < 256) →
    decodeB64 (encodeB64 l) = some l
  | [], _ => rfl
  | [a], h => by
    have ha : a < 256 := h a (List.mem_singleton.mpr rfl)
    have h1 : b64Val (b64Char (a / 4)) = some (a / 4) := b64Val_b64Char _ (by omega)
    have h2 : b64Val (b64Char (a % 4 * 16)) = some (a % 4 * 16) := b64Val_b64Char _ (by omega)
    simp only [encodeB64, decodeB64, h1, h2]
    simp
    omega
  | [a, b], h => by
    have ha : a < 256 := h a (by simp)
    have hb : b < 256 := h b (by simp)
    have h1 : b64Val (b64Char (a / 4)) = some (a / 4) := b64Val_b64Char _ (by omega)
    have h2 : b64Val (b64Char (a % 4 * 16 + b / 16)) = some (a % 4 * 16 + b / 16) :=
      b64Val_b64Char _ (by omega)
    have h3 : b64Val (b64Char (b % 16 * 4)) = some (b % 16 * 4) := b64Val_b64Char _ (by omega)
    simp only [encodeB64, decodeB64, h1, h2, h3]
    rw [if_neg (b64Char_ne_pad _)]
    simp
    omega
  | a :: b :: c :: rest, h => by
    have ha : a < 256 := h a (by simp)
    have hb : b < 256 := h b (by simp)
    have hc : c < 256 := h c (by simp)
    have h1 : b64Val (b64Char (a / 4)) = some (a / 4) := b64Val_b64Char _ (by omega)
    have h2 : b64Val (b64Char (a % 4 * 16 + b / 16)) = some (a % 4 * 16 + b / 16) :=
      b64Val_b64Char _ (by omega)
    have h3 : b64Val (b64Char (b % 16 * 4 + c / 64)) = some (b % 16 * 4 + c / 64) :=
      b64Val_b64Char _ (by omega)
    have h4 : b64Val (b64Char (c % 64)) = some (c % 64) := b64Val_b64Char _ (by omega)
    have ih := decodeB64_encodeB64 rest (fun d hd => h d (by simp [hd]))
    simp only [encodeB64, decodeB64, h1, h2, h3, h4]
    rw [if_neg (b64Char_ne_pad _), if_neg (b64Char_ne_pad _)]
    rw [ih]
    simp
    refine ⟨by omega, by omega, by omega⟩

lemma encodeB64_length : ∀ l : Bytes, (encodeB64 l).length = (l.length + 2) / 3 * 4
  | [] => rfl
  | [_] => by simp [encodeB64]
  | [_, _] => by simp [encodeB64]
  | a :: b :: c :: rest => by
    simp only [encodeB64, List.length_cons]
    rw [encodeB64_length rest]
    omega

lemma isWs_b64Char (v : Nat) : isWsChar (b64Char v) = false := by
  have hb : ∀ m, m < 64 → isWsChar (b64Alphabet.getD m 'A') = false := by decide
  unfold b64Char
  exact hb (v % 64) (Nat.mod_lt _ (by decide))

lemma encodeB64_no_ws : ∀ (l : Bytes) (ch : Char), ch ∈ encodeB64 l → isWsChar ch = false
  | [], _, hch => by simp [encodeB64] at hch
  | [a], ch, hch => by
    simp only [encodeB64, List.mem_cons, List.not_mem_nil, or_false] at hch
    rcases hch with h | h | h | h <;> subst h <;> first | exact isWs_b64Char _ | rfl
  | [a, b], ch, hch => by
    simp only [encodeB64, List.mem_cons, List.not_mem_nil, or_false] at hch
    rcases hch with h | h | h | h <;> subst h <;> first | exact isWs_b64Char _ | rfl
  | a :: b :: c :: rest, ch, hch => by
    simp only [encodeB64, List.mem_cons] at hch
    rcases hch with h | h | h | h | h
    · subst h; exact isWs_b64Char _
    · subst h; exact isWs_b64Char _
    · subst h; exact isWs_b64Char _
    · subst h; exact isWs_b64Char _
    · exact encodeB64_no_ws rest ch h

/- ## Trim lemmas -/

lemma trimL_append_ws (w s : List Char) (hw : ∀ c ∈ w, isWsChar c = true) :
    trimL (w ++ s) = trimL s := by
  unfold trimL
  exact List.dropWhile_append_of_pos hw

lemma trimR_append_ws (u w : List Char) (hw : ∀ c ∈ w, isWsChar c = true) :
    trimR (u ++ w) = trimR u := by
  unfold trimR
  rw [List.reverse_append]
  rw [List.dropWhile_append_of_pos (fun a ha => hw a (List.mem_reverse.mp ha))]

lemma trimL_of_no_ws (l : List Char) (h : ∀ c ∈ l, isWsChar c = false) : trimL l = l := by
  unfold trimL
  cases l with
  | nil => rfl
  | cons a t =>
    rw [List.dropWhile_cons_of_neg]
    simp [h a (List.mem_cons_self a t)]

lemma trimR_of_no_ws (l : List Char) (h : ∀ c ∈ l, isWsChar c = false) : trimR l = l := by
  unfold trimR
  cases hl : l.reverse with
  | nil =>
    simp [hl]
    have : l = [] := by
      have := congrArg List.reverse hl
      simpa using this
    simp [this]
  | cons a t =>
    rw [List.dropWhile_cons_of_neg]
    · rw [← hl]
      simp
    · have ha : a ∈ l := by
        rw [← List.mem_reverse, hl]
        exact List.mem_cons_self a t
      simp [h a ha]

lemma trimC_of_no_ws (l : List Char) (h : ∀ c ∈ l, isWsChar c = false) : trimC l = l := by
  unfold trimC
  rw [trimL_of_no_ws l h, trimR_of_no_ws l h]

lemma dropWhile_eq_nil_of_all (w : List Char) (hw : ∀ c ∈ w, isWsChar c = true) :
    w.dropWhile isWsChar = [] := by
  induction w with
  | nil => rfl
  | cons a t ih =>
    rw [List.dropWhile_cons_of_pos (hw a (List.mem_cons_self a t))]
    exact ih (fun c hc => hw c (List.mem_cons_of_mem _ hc))

/-- Trimming is insensitive to surrounding whitespace. -/
lemma trimC_surround (w1 s w2 : List Char)
    (h1 : ∀ c ∈ w1, isWsChar c = true) (h2 : ∀ c ∈ w2, isWsChar c = true) :
    trimC (w1 ++ s ++ w2) = trimC s := by
  unfold trimC
  rw [List.append_assoc, trimL_append_ws w1 (s ++ w2) h1]
  unfold trimL
  rw [List.dropWhile_append]
  by_cases hd : (s.dropWhile isWsChar).isEmpty
  · rw [if_pos hd]
    rw [dropWhile_eq_nil_of_all w2 h2]
    have hs : s.dropWhile isWsChar = [] := by
      cases hse : s.dropWhile isWsChar with
      | nil => rfl
      | cons a t => rw [hse] at hd; simp [List.isEmpty] at hd
    rw [hs]
  · rw [if_neg hd]
    exact trimR_append_ws (s.dropWhile isWsChar) w2 h2

/- ## Claim theorems -/

/-- Claim C1: for every plaintext `x` of any length (including 0 bytes) and
any two valid X25519 keypairs, decrypting the output of `encrypt` (sender
private key, recipient public key) with the recipient's private key
succeeds, writes exactly `x` to the output stream, and returns the sender's
static public key as the learned identity. -/
theorem c1_encrypt_decrypt_roundtrip (senderPriv recipPriv : Bytes) (fname : List Char)
    (x : Bytes) (h32 : senderPriv.length = 32) (hf : is_stdinout fname = false)
    (hx : x.length < 2 ^ 64) :
    ∃ ct, encrypt senderPriv (dhPub recipPriv) fname x = .ok ct ∧
      decrypt recipPriv none ct = .ok (x, dhPub senderPriv) := by
  refine ⟨_, encrypt_eq senderPriv (dhPub recipPriv) fname x h32 hf, ?_⟩
  unfold decrypt
  rw [decryptHeaders_ok senderPriv recipPriv h32 x.length
    (catL (encryptRecords senderPriv (dhPub recipPriv) x))]
  simp only [except_bind_ok]
  have hdec : decLoop (sessionKey (dhPub senderPriv) (dhPub recipPriv)) 1
      (catL (encryptRecords senderPriv (dhPub recipPriv) x)) =
      .ok ([] ++ catL (chunksOf MAX_PAYLOAD_PART_LENGTH x),
        0 + sumLens (chunksOf MAX_PAYLOAD_PART_LENGTH x)) := by
    unfold decLoop encryptRecords
    exact decLoopF_encLoopReads _ _ 1 _ [] 0
      (fun c hc => chunksOf_mem_ne_nil _ mppl_pos x c hc)
      (chunksOf_dropLast_full _ mppl_pos x)
      le_rfl
  rw [catL_chunksOf _ mppl_pos, sumLens_chunksOf _ mppl_pos] at hdec
  simp only [List.nil_append, Nat.zero_add] at hdec
  rw [hdec]
  simp only [except_bind_ok]
  rw [decodeBe64_be64 x.length hx]
  simp [assertE]

/-- Claim C1 witness at a concrete instance. -/
theorem c1_encrypt_decrypt_roundtrip_witness :
    ∃ ct, encrypt (List.replicate 32 0) (dhPub (List.replicate 32 2)) ['f'] [7, 8, 9] =
        .ok ct ∧
      decrypt (List.replicate 32 2) none ct = .ok ([7, 8, 9], dhPub (List.replicate 32 0)) :=
  c1_encrypt_decrypt_roundtrip (List.replicate 32 0) (List.replicate 32 2) ['f'] [7, 8, 9]
    (by decide) (by decide) (by decide)

/-- Claim C2: on V1 decrypt, the record-reading loop terminates with the
accumulated decrypted payload byte count equal to the length declared in
the encrypted size marker exactly on the successful runs: once the headers
parse, `decrypt` succeeds with output `o` if and only if the payload loop
consumes the remaining stream returning `o` with accumulated count equal to
the declared length. -/
theorem c2_loop_sum_equals_declared (priv s o id : Bytes) (d : Nat) (rest : Bytes)
    (hh : decryptHeaders priv s = .ok (id, d, rest)) :
    decrypt priv none s = .ok (o, id) ↔
      decLoop (sessionKey id (dhPub priv)) 1 rest = .ok (o, d) := by
  unfold decrypt
  rw [hh]
  simp only [except_bind_ok]
  constructor
  · intro h
    rcases hr : decLoop (sessionKey id (dhPub priv)) 1 rest with e | pr
    · rw [hr] at h
      simp only [except_bind_error] at h
      exact Except.noConfusion h
    · rw [hr] at h
      simp only [except_bind_ok] at h
      by_cases hd : d = pr.2
      · have ha : assertE (d = pr.2) = .ok () := by simp [assertE, hd]
        rw [ha] at h
        simp only [except_bind_ok, except_pure, Except.ok.injEq, Prod.mk.injEq] at h
        exact congrArg Except.ok (Prod.ext h.1 hd.symm)
      · have ha : assertE (d = pr.2) = .error .assertViolation := by simp [assertE, hd]
        rw [ha] at h
        simp only [except_bind_error] at h
        exact Except.noConfusion h
  · intro h
    rw [h]
    simp only [except_bind_ok]
    simp [assertE]

/-- Claim C2 witness at a concrete ciphertext. -/
theorem c2_loop_sum_equals_declared_witness :
    decrypt (List.replicate 32 2) none
        (handshakeMsg (List.replicate 32 0) (dhPub (List.replicate 32 2)) ++
          writeMessage (sessionKey (dhPub (List.replicate 32 0)) (dhPub (List.replicate 32 2)))
            0 (be64 1) ++
          writeMessage (sessionKey (dhPub (List.replicate 32 0)) (dhPub (List.replicate 32 2)))
            1 [9]) =
        .ok ([9], dhPub (List.replicate 32 0)) ↔
      decLoop (sessionKey (dhPub (List.replicate 32 0)) (dhPub (List.replicate 32 2))) 1
          (writeMessage (sessionKey (dhPub (List.replicate 32 0)) (dhPub (List.replicate 32 2)))
            1 [9]) =
        .ok ([9], 1) :=
  c2_loop_sum_equals_declared (List.replicate 32 2) _ [9] (dhPub (List.replicate 32 0)) 1 _
    (by rfl)

/-- Claim C3: if the ciphertext stream reaches end-of-stream while the
accumulated decrypted payload bytes are fewer than the declared length,
`decrypt` fails (with the fatal length-mismatch assertion) and never
silently succeeds. -/
theorem c3_truncation_fails (priv : Bytes) (pk : Option Bytes) (s o id : Bytes)
    (d sum : Nat) (rest : Bytes)
    (hh : decryptHeaders priv s = .ok (id, d, rest))
    (hl : decLoop (sessionKey id (dhPub priv)) 1 rest = .ok (o, sum))
    (hlt : sum < d) :
    decrypt priv pk s = .error .assertViolation := by
  unfold decrypt
  rw [hh]
  simp only [except_bind_ok]
  rw [hl]
  simp only [except_bind_ok]
  have ha : assertE (d = sum) = .error .assertViolation := by
    have : ¬ d = sum := by omega
    simp [assertE, this]
  rw [ha]
  simp only [except_bind_error]

/-- Claim C3 witness: a valid header declaring 1 payload byte followed by
end-of-stream makes decrypt fail. -/
theorem c3_truncation_fails_witness :
    decrypt (List.replicate 32 2) none
        (handshakeMsg (List.replicate 32 0) (dhPub (List.replicate 32 2)) ++
          writeMessage (sessionKey (dhPub (List.replicate 32 0)) (dhPub (List.replicate 32 2)))
            0 (be64 1) ++ []) =
      .error .assertViolation :=
  c3_truncation_fails (List.replicate 32 2) none _ [] (dhPub (List.replicate 32 0)) 1 0 []
    (by rfl) (by rfl) (by decide)

/-- Claim C4: with an expected sender key supplied, decrypt succeeds when it
matches the identity learned from the handshake and fails with the sender
mismatch assertion when it differs; with no expected key the sender is
accepted and the learned identity returned. -/
theorem c4_sender_verification (priv s epk o id : Bytes)
    (hnone : decrypt priv none s = .ok (o, id)) :
    decrypt priv (some id) s = .ok (o, id) ∧
      (epk ≠ id → decrypt priv (some epk) s = .error .assertViolation) ∧
      (∀ o' id', decrypt priv (some epk) s = .ok (o', id') → epk = id') := by
  refine ⟨?_, ?_, ?_⟩
  · rw [decrypt_some_eq, hnone]
    simp [assertE]
  · intro hne
    rw [decrypt_some_eq, hnone]
    simp only [except_bind_ok]
    have ha : assertE (epk = id) = .error .assertViolation := by simp [assertE, hne]
    rw [ha]
    simp only [except_bind_error]
  · intro o' id' hok
    rw [decrypt_some_eq, hnone] at hok
    simp only [except_bind_ok] at hok
    by_cases he : epk = id
    · have ha : assertE (epk = id) = .ok () := by simp [assertE, he]
      rw [ha] at hok
      simp only [except_bind_ok, Except.ok.injEq, Prod.mk.injEq] at hok
      rw [he, hok.2]
    · have ha : assertE (epk = id) = .error .assertViolation := by simp [assertE, he]
      rw [ha] at hok
      simp only [except_bind_error] at hok
      exact Except.noConfusion hok

/-- Claim C4 witness: with the matching expected sender key, the concrete
decrypt succeeds. -/
theorem c4_sender_verification_witness :
    decrypt (List.replicate 32 2) (some (dhPub (List.replicate 32 0)))
        (handshakeMsg (List.replicate 32 0) (dhPub (List.replicate 32 2)) ++
          writeMessage (sessionKey (dhPub (List.replicate 32 0)) (dhPub (List.replicate 32 2)))
            0 (be64 1) ++
          writeMessage (sessionKey (dhPub (List.replicate 32 0)) (dhPub (List.replicate 32 2)))
            1 [9]) =
      .ok ([9], dhPub (List.replicate 32 0)) :=
  (c4_sender_verification (List.replicate 32 2) _ [5] [9] (dhPub (List.replicate 32 0))
    (by rfl)).1

/-- Claim C5: invoking `enc` with INFILE = "-" never performs encryption:
whatever the other arguments, the standard input text, and the file system
contents, the invocation ends as an error. -/
theorem c5_enc_stdin_unsupported (privN pubN outN : List Char) (stdin : List Char)
    (fs : List Char → Option (List Char)) (fileBytes : Bytes) :
    isErr (encryptCmd privN pubN ['-'] outN stdin fs fileBytes) = true := by
  unfold encryptCmd
  by_cases hn : 1 < (if is_stdinout ['-'] = true then 1 else 0) +
      (if is_stdinout privN = true then 1 else 0) + (if is_stdinout pubN = true then 1 else 0)
  · rw [if_pos hn]
    rfl
  · rw [if_neg hn]
    rcases h1 : read_key privN stdin fs .Private with e | k1
    · simp only [h1, except_bind_error]
      rfl
    · cases k1 with
      | none =>
        simp only [h1, except_bind_ok]
        rfl
      | some privkey =>
        simp only [h1, except_bind_ok]
        rcases h2 : read_key pubN stdin fs .Public with e | k2
        · simp only [h2, except_bind_error]
          rfl
        · cases k2 with
          | none =>
            simp only [h2, except_bind_ok]
            rfl
          | some pubkey =>
            simp only [h2, except_bind_ok]
            unfold encrypt
            rw [show is_stdinout ['-'] = true from rfl]
            rfl

/-- Each chunk the encrypt loop reads pairs with the record it emits:
the record is the chunk plus the 16-byte tag. -/
lemma encLoopReads_forall2 (k : Bytes) (chunks : List Bytes) (nonce : Nat)
    (h : ∀ c ∈ chunks, c ≠ [] ∧ c.length ≤ MAX_PAYLOAD_PART_LENGTH) :
    List.Forall₂
      (fun c r => c.length ≤ MAX_PAYLOAD_PART_LENGTH ∧
        r.length = c.length + OVERHEAD_PER_MESSAGE ∧ r.length ≤ MAX_MESSAGE_LENGTH)
      chunks (encLoopReads k nonce chunks).1 := by
  induction chunks generalizing nonce with
  | nil =>
    rw [encLoopReads_nil]
    exact List.Forall₂.nil
  | cons c rest ih =>
    have hc := h c (List.mem_cons_self c rest)
    rw [encLoopReads_cons_ne k nonce c rest hc.1]
    refine List.Forall₂.cons ⟨hc.2, writeMessage_length k nonce c, ?_⟩
      (ih (nonce + 1) (fun d hd => h d (List.mem_cons_of_mem _ hd)))
    rw [writeMessage_length]
    have he : MAX_PAYLOAD_PART_LENGTH + OVERHEAD_PER_MESSAGE = MAX_MESSAGE_LENGTH := by decide
    omega

/-- Claim C6: every transport record emitted by `encrypt` is the plaintext
chunk plus OVERHEAD_PER_MESSAGE = 16 bytes of tag, with chunk length at
most MAX_PAYLOAD_PART_LENGTH = 65519 and record length at most
MAX_MESSAGE_LENGTH = 65535, for every iteration of the encrypt loop. -/
theorem c6_record_sizes (priv pub : Bytes) (x : Bytes) :
    List.Forall₂
      (fun c r => c.length ≤ MAX_PAYLOAD_PART_LENGTH ∧
        r.length = c.length + OVERHEAD_PER_MESSAGE ∧ r.length ≤ MAX_MESSAGE_LENGTH)
      (chunksOf MAX_PAYLOAD_PART_LENGTH x) (encryptRecords priv pub x) := by
  unfold encryptRecords
  exact encLoopReads_forall2 _ _ 1
    (fun c hc => chunksOf_mem_ne_nil _ mppl_pos x c hc)

/-- Claim C7: the V1 file layout is exact.  Encrypt writes the 96-byte
handshake message, then the 24-byte AEAD-encrypted size marker whose
8-byte plaintext is the payload length big-endian, then the payload
records; decrypt consumes exactly 96 bytes for the handshake followed by
exactly 24 bytes for the size marker before any payload record. -/
theorem c7_file_layout (priv pub : Bytes) (fname : List Char) (x : Bytes)
    (priv2 : Bytes) (s : Bytes)
    (h32 : priv.length = 32) (hf : is_stdinout fname = false) (hx : x.length < 2 ^ 64)
    (hs : HEADER_LENGTH + SIZEMARKER_ENC_LENGTH ≤ s.length) :
    encrypt priv pub fname x =
        .ok (handshakeMsg priv pub ++
          writeMessage (sessionKey (dhPub priv) pub) 0 (be64 x.length) ++
          catL (encryptRecords priv pub x)) ∧
      (handshakeMsg priv pub).length = HEADER_LENGTH ∧
      (writeMessage (sessionKey (dhPub priv) pub) 0 (be64 x.length)).length =
        SIZEMARKER_ENC_LENGTH ∧
      (be64 x.length).length = SIZEMARKER_LENGTH ∧
      decodeBe64 (be64 x.length) = x.length ∧
      readMessage (sessionKey (dhPub priv) pub) 0
          (writeMessage (sessionKey (dhPub priv) pub) 0 (be64 x.length)) =
        .ok (be64 x.length) ∧
      decryptHeaders priv2 s =
        (readHandshake priv2 (s.take HEADER_LENGTH)) >>= fun remoteStatic =>
          (readMessage (sessionKey remoteStatic (dhPub priv2)) 0
            ((s.drop HEADER_LENGTH).take SIZEMARKER_ENC_LENGTH)) >>= fun sm =>
          (assertE (sm.length = SIZEMARKER_LENGTH)) >>= fun _ =>
          .ok (remoteStatic, decodeBe64 sm,
            s.drop (HEADER_LENGTH + SIZEMARKER_ENC_LENGTH)) := by
  refine ⟨encrypt_eq priv pub fname x h32 hf, handshakeMsg_length priv pub h32,
    by rw [writeMessage_length, be64_length]; rfl, be64_length x.length,
    decodeBe64_be64 x.length hx, readMessage_writeMessage _ 0 (be64 x.length), ?_⟩
  unfold decryptHeaders readExact
  have h96 : HEADER_LENGTH ≤ s.length := by omega
  rw [if_pos h96]
  simp only [except_bind_ok]
  congr 1
  funext remoteStatic
  have h24 : SIZEMARKER_ENC_LENGTH ≤ (s.drop HEADER_LENGTH).length := by
    rw [List.length_drop]
    omega
  rw [if_pos h24]
  simp only [except_bind_ok]
  rw [List.drop_drop]

/-- Claim C7 witness: the encrypt side of the layout at concrete inputs. -/
theorem c7_file_layout_witness :
    encrypt (List.replicate 32 0) (dhPub (List.replicate 32 2)) ['f'] [7] =
      .ok (handshakeMsg (List.replicate 32 0) (dhPub (List.replicate 32 2)) ++
        writeMessage
          (sessionKey (dhPub (List.replicate 32 0)) (dhPub (List.replicate 32 2))) 0
          (be64 1) ++
        catL (encryptRecords (List.replicate 32 0) (dhPub (List.replicate 32 2)) [7])) :=
  (c7_file_layout (List.replicate 32 0) (dhPub (List.replicate 32 2)) ['f'] [7]
    (List.replicate 32 2)
    (handshakeMsg (List.replicate 32 0) (dhPub (List.replicate 32 2)) ++
      writeMessage (sessionKey (dhPub (List.replicate 32 0)) (dhPub (List.replicate 32 2)))
        0 (be64 1) ++
      writeMessage (sessionKey (dhPub (List.replicate 32 0)) (dhPub (List.replicate 32 2)))
        1 [7])
    (by decide) (by decide) (by decide) (by decide)).1

/-- Claim C10: the assertion at the end of `encrypt` comparing the
pre-computed payload length with the accumulated count of bytes read never
fails, provided the total number of bytes returned by the reads (up to the
first empty read, which ends the loop) equals the initially observed
payload length. -/
theorem c10_encrypt_assert_holds (k : Bytes) (reads : List Bytes) (payload_length : Nat)
    (h : sumLens (reads.takeWhile (fun c => !c.isEmpty)) = payload_length) :
    (encLoopReads k 1 reads).2 = payload_length ∧
      assertE (payload_length = (encLoopReads k 1 reads).2) = .ok () := by
  have hs : (encLoopReads k 1 reads).2 = payload_length := by
    rw [encLoopReads_snd, h]
  exact ⟨hs, by simp [assertE, hs]⟩

/-- Claim C10 witness at a concrete read sequence. -/
theorem c10_encrypt_assert_holds_witness :
    (encLoopReads [3] 1 [[1], [2, 4]]).2 = 3 ∧
      assertE ((3 : Nat) = (encLoopReads [3] 1 [[1], [2, 4]]).2) = .ok () :=
  c10_encrypt_assert_holds [3] [[1], [2, 4]] 3 (by decide)

/-- Claim C8: for any 32-byte key and either key type, `write_key` to a
file followed by `read_key` of that content returns the original key bytes
(including when the key is the WORLD key, stored as the single character
"+"); and `read_key` of the name "+" returns the documented WORLD key
bytes of the requested key type. -/
theorem c8_write_read_key_roundtrip (data : Bytes) (kt : KeyType) (fname : List Char)
    (hb : ∀ b ∈ data, b < 256) (hl : data.length = 32)
    (h1 : is_none fname = false) (h2 : is_world fname = false)
    (h3 : is_stdinout fname = false) :
    (∃ content, write_key fname data kt = .ok (some content) ∧
      read_key_content content kt = .ok data) ∧
    ∀ stdin fs, read_key ['+'] stdin fs kt = .ok (some (worldBytes kt)) := by
  constructor
  · by_cases hw : encodeB64 data = worldStr kt
    · refine ⟨['+'], ?_, ?_⟩
      · unfold write_key
        rw [if_neg (by simp [h1]), if_neg (by simp [h2]), if_neg (by simp [h3]), if_pos hw]
      · unfold read_key_content
        rw [show trimC ['+'] = ['+'] from rfl, if_pos (by rfl : is_world ['+'] = true)]
        have htw : trimC (worldStr kt) = worldStr kt := by cases kt <;> rfl
        rw [htw, ← hw, decodeB64_encodeB64 data hb]
    · refine ⟨encodeB64 data, ?_, ?_⟩
      · unfold write_key
        rw [if_neg (by simp [h1]), if_neg (by simp [h2]), if_neg (by simp [h3]), if_neg hw]
      · unfold read_key_content
        have hnw : ∀ c ∈ encodeB64 data, isWsChar c = false := encodeB64_no_ws data
        rw [trimC_of_no_ws _ hnw]
        have hne : encodeB64 data ≠ ['+'] := by
          intro hcon
          have hlen := congrArg List.length hcon
          rw [encodeB64_length, hl] at hlen
          simp at hlen
        have hiw : is_world (encodeB64 data) = false := by
          unfold is_world
          simp [hne]
        rw [if_neg (by simp [hiw]), trimC_of_no_ws _ hnw, decodeB64_encodeB64 data hb]
  · intro stdin fs
    cases kt <;> rfl

/-- Claim C8 witness: a concrete 32-byte key roundtrips through a key file,
and the "+" name yields the WORLD public key bytes. -/
theorem c8_write_read_key_roundtrip_witness :
    read_key ['+'] [] (fun _ => none) KeyType.Public =
      .ok (some (worldBytes KeyType.Public)) :=
  (c8_write_read_key_roundtrip (List.replicate 32 5) KeyType.Public ['k']
    (by decide) (by decide) (by decide) (by decide) (by decide)).2 [] (fun _ => none)

/-- Claim C9: `read_key` ignores leading and trailing whitespace in the key
source: surrounding any stored key text with whitespace yields the same
result as the bare text, and a "+" sentinel surrounded by whitespace is
still recognized as the WORLD key. -/
theorem c9_read_key_trims_whitespace (content w1 w2 : List Char) (kt : KeyType)
    (h1 : ∀ c ∈ w1, isWsChar c = true) (h2 : ∀ c ∈ w2, isWsChar c = true) :
    read_key_content (w1 ++ content ++ w2) kt = read_key_content content kt ∧
    read_key_content (w1 ++ ['+'] ++ w2) kt = .ok (worldBytes kt) := by
  have key : ∀ c : List Char,
      read_key_content (w1 ++ c ++ w2) kt = read_key_content c kt := by
    intro c
    unfold read_key_content
    rw [trimC_surround w1 c w2 h1 h2]
    by_cases hwd : is_world (trimC c) = true
    · rw [if_pos hwd, if_pos hwd]
    · rw [if_neg hwd, if_neg hwd]
      rw [trimC_surround w1 c w2 h1 h2]
  refine ⟨key content, ?_⟩
  rw [key ['+']]
  cases kt <;> rfl

/-- Claim C9 witness: a newline-wrapped "+" is still the WORLD key. -/
theorem c9_read_key_trims_whitespace_witness :
    read_key_content (['\n'] ++ ['+'] ++ [' ']) KeyType.Private =
      .ok (worldBytes KeyType.Private) :=
  (c9_read_key_trims_whitespace ['A', 'A', 'A', 'A'] ['\n'] [' '] KeyType.Private
    (by decide) (by decide)).2

end Peter
